import Mathlib

/-!
Verification of the foundry CLI resolver core: contract locator parsing
(`ContractInfo::from_str`, `FullContractInfo::from_str`), dependency
resolution (`Dependency::from_str` with its two regexes), and the fork
storage-cache decision (`get_fork` / `get_block_storage_path`), embedded
from `src/cli/src/opts/forge.rs` and `src/cli/src/utils.rs`.

Rust `&str` values are embedded as `List Char`.
-/

deriving instance DecidableEq for Except

namespace Foundry

/-- Embedding of Rust `str::split(c)`: splits on every occurrence of `c`,
always yields at least one (possibly empty) segment. -/
def splitOnChar (c : Char) : List Char → List (List Char)
  | [] => [[]]
  | a :: rest =>
    if a = c then [] :: splitOnChar c rest
    else
      match splitOnChar c rest with
      | g :: gs => (a :: g) :: gs
      | [] => [[a]]

/-- Embedding of Rust `str::split_once(c)`: the parts strictly before and
after the first occurrence of `c`, or `none` when `c` does not occur. -/
def splitOnce (c : Char) : List Char → Option (List Char × List Char)
  | [] => none
  | a :: rest =>
    if a = c then some ([], rest)
    else (splitOnce c rest).map fun p => (a :: p.1, p.2)

/-- The Unicode White_Space code points: the exact set removed by Rust
`char::is_whitespace` (U+0009..U+000D, U+0020, U+0085, U+00A0, U+1680,
U+2000..U+200A, U+2028, U+2029, U+202F, U+205F, U+3000). -/
def isRustWhitespace (c : Char) : Bool :=
  c.val = 0x09 || c.val = 0x0A || c.val = 0x0B || c.val = 0x0C || c.val = 0x0D ||
  c.val = 0x20 || c.val = 0x85 || c.val = 0xA0 || c.val = 0x1680 ||
  (0x2000 ≤ c.val && c.val ≤ 0x200A) ||
  c.val = 0x2028 || c.val = 0x2029 || c.val = 0x202F || c.val = 0x205F ||
  c.val = 0x3000

/-- Embedding of Rust `str::trim`: removes Unicode White_Space
characters from both ends. -/
def trimChars (s : List Char) : List Char :=
  ((s.dropWhile isRustWhitespace).reverse.dropWhile isRustWhitespace).reverse

/-- Text strictly before the first occurrence of `c` (whole string when
`c` is absent); specification-side helper. -/
def beforeFirstChar (c : Char) : List Char → List Char
  | [] => []
  | a :: rest => if a = c then [] else a :: beforeFirstChar c rest

/-- Text strictly after the first occurrence of `c` (empty when `c` is
absent); specification-side helper. -/
def afterFirstChar (c : Char) : List Char → List Char
  | [] => []
  | a :: rest => if a = c then rest else afterFirstChar c rest

/-- Text strictly after the last occurrence of `c` (whole string when `c`
is absent); specification-side helper. -/
def afterLastChar (c : Char) : List Char → List Char
  | [] => []
  | a :: rest => if c ∈ rest then afterLastChar c rest else if a = c then rest else a :: rest

/-- Text strictly before the last occurrence of `c` (empty when `c` is
absent); specification-side helper. -/
def beforeLastChar (c : Char) : List Char → List Char
  | [] => []
  | a :: rest => if c ∈ rest then a :: beforeLastChar c rest else []

/-- The `<path>:<contractname>`-with-optional-path locator
(`ContractInfo` in `forge.rs`). -/
structure ContractInfo where
  path : Option (List Char)
  name : List Char
deriving DecidableEq, Repr

/-- Embedding of `ContractInfo::from_str`: `rsplit(':')`, the first
element (text after the last colon) trimmed is the name, the second
element is the path; rejects names ending in `.sol` or containing `/`. -/
def ContractInfo.from_str (s : List Char) : Except String ContractInfo :=
  let err := "contract source info format must be `<path>:<contractname>` or `<contractname>`"
  match (splitOnChar ':' s).reverse with
  | [] => .error err
  | n :: rest =>
    let name := trimChars n
    let path := rest.head?
    if (".sol").data.isSuffixOf name || name.contains '/' then .error err
    else .ok ⟨path, name⟩

/-- The mandatory `<path>:<contractname>` locator (`FullContractInfo`). -/
structure FullContractInfo where
  path : List Char
  name : List Char
deriving DecidableEq, Repr

/-- Embedding of `FullContractInfo::from_str`: `split_once(':')`, path
verbatim, name trimmed; error when no colon is present. -/
def FullContractInfo.from_str (s : List Char) : Except String FullContractInfo :=
  match splitOnce ':' s with
  | none => .error ("Expected `<path>:<contractname>`, got `" ++ String.mk s ++ "`")
  | some (path, rest) => .ok ⟨path, trimChars rest⟩

/-- Character class `[A-Za-z0-9-]` of `GH_REPO_PREFIX_REGEX` (host and
tld labels). -/
def isHostChar (c : Char) : Bool := c.isAlpha || c.isDigit || c = '-'

/-- Character class `[A-Za-z\d-]` (owner part of `GH_REPO_REGEX`). -/
def isOwnerChar (c : Char) : Bool := c.isAlpha || c.isDigit || c = '-'

/-- Character class `[A-Za-z\d_.-]` (repo part of `GH_REPO_REGEX`). -/
def isRepoChar (c : Char) : Bool :=
  c.isAlpha || c.isDigit || c = '_' || c = '.' || c = '-'

/-- Matcher for the suffix `([A-Za-z0-9-]+)\.([A-Za-z0-9-]+)(/|:)` of
`GH_REPO_PREFIX_REGEX` at the start of `s`. The `+` runs are maximal:
since `.` and the separators are outside the class, no shorter
backtracked run can be followed by the required literal, so the greedy
run is the only candidate. Returns (host, tld, separator, rest). -/
def hostTldSepAt (s : List Char) : Option (List Char × List Char × Char × List Char) :=
  let host := s.takeWhile isHostChar
  let r1 := s.dropWhile isHostChar
  if host.isEmpty then none
  else
    match r1 with
    | '.' :: r2 =>
      let tld := r2.takeWhile isHostChar
      let r3 := r2.dropWhile isHostChar
      if tld.isEmpty then none
      else
        match r3 with
        | c :: r4 => if c = '/' || c = ':' then some (host, tld, c, r4) else none
        | [] => none
    | _ => none

/-- Attempt of `GH_REPO_PREFIX_REGEX` with the optional scheme group
absent (zero iterations of `((git@)|(git\+https://)|(https://))?`). -/
def matchNoScheme (s : List Char) : Option (List Char × List Char × List Char) :=
  (hostTldSepAt s).map fun x => (x.1, x.2.1, x.2.2.2)

/-- Attempt of the whole `GH_REPO_PREFIX_REGEX` at the start of `s`,
with the regex crate's preference order: scheme alternatives `git@`,
`git+https://`, `https://` in order, then the scheme-absent case.
Returns (host label, tld label, rest after the whole match). -/
def matchAtPos (s : List Char) : Option (List Char × List Char × List Char) :=
  if ("git@").data.isPrefixOf s then
    match hostTldSepAt (s.drop 4) with
    | some (h, t, _, r) => some (h, t, r)
    | none => matchNoScheme s
  else if ("git+https://").data.isPrefixOf s then
    match hostTldSepAt (s.drop 12) with
    | some (h, t, _, r) => some (h, t, r)
    | none => matchNoScheme s
  else if ("https://").data.isPrefixOf s then
    match hostTldSepAt (s.drop 8) with
    | some (h, t, _, r) => some (h, t, r)
    | none => matchNoScheme s
  else matchNoScheme s

/-- Leftmost match of `GH_REPO_PREFIX_REGEX` (as used by both
`captures` and `replace`): the earliest start position wins. Returns
(text before the match, host label, tld label, text after the match). -/
def findPrefixMatch : List Char → Option (List Char × List Char × List Char × List Char)
  | [] => none
  | c :: rest =>
    match matchAtPos (c :: rest) with
    | some (h, t, r) => some ([], h, t, r)
    | none =>
      (findPrefixMatch rest).map fun x => (c :: x.1, x.2.1, x.2.2.1, x.2.2.2)

/-- Continuation of `GH_REPO_REGEX` after at least one owner character:
keep consuming owner characters, then require `/` followed by at least
one repo character (the pattern ends there, so one suffices). -/
def ghAfterOwner : List Char → Bool
  | [] => false
  | c :: rest =>
    if c = '/' then
      match rest with
      | d :: _ => isRepoChar d
      | [] => false
    else if isOwnerChar c then ghAfterOwner rest
    else false

/-- Attempt of `GH_REPO_REGEX` (`[A-Za-z\d-]+/[A-Za-z\d_.-]+`) at the
start of `s`. -/
def ghMatchAt : List Char → Bool
  | [] => false
  | c :: rest => isOwnerChar c && ghAfterOwner rest

/-- Embedding of `GH_REPO_REGEX.is_match`: some position admits a match. -/
def ghRepoIsMatch : List Char → Bool
  | [] => false
  | c :: rest => ghMatchAt (c :: rest) || ghRepoIsMatch rest

/-- A parsed git dependency (`Dependency` in `forge.rs`). -/
structure Dependency where
  name : List Char
  url : List Char
  tag : Option (List Char)
deriving DecidableEq, Repr

/-- The `url_with_version` local of `Dependency::from_str`: prefix
normalization through `GH_REPO_PREFIX_REGEX` (capture groups 5 and 6 are
the host and tld labels; `replace` drops the leftmost match), with the
`GH_REPO_REGEX` GitHub-shorthand fallback. -/
def urlWithVersion (dependency : List Char) : Except String (List Char) :=
  match findPrefixMatch dependency with
  | some (before, brand, tld, after) =>
    .ok (("https://").data ++ brand ++ '.' :: (tld ++ '/' :: (before ++ after)))
  | none =>
    if ghRepoIsMatch dependency then .ok (("https://github.com/").data ++ dependency)
    else .error ("invalid github repository name `" ++ String.mk dependency ++ "`")

/-- Embedding of `Dependency::from_str`: normalize, split on the version
separator `@` (first segment is the url, next segment if any is the
tag), and take the last `/`-segment of the url as the name. The two
`.error` fallbacks mirror the source's unreachable `ok_or_else` arms. -/
def Dependency.from_str (dependency : List Char) : Except String Dependency :=
  match urlWithVersion dependency with
  | .error e => .error e
  | .ok w =>
    match splitOnChar '@' w with
    | [] => .error "no dependency path was provided"
    | url :: rest =>
      match (splitOnChar '/' url).getLast? with
      | none => .error "no dependency name found"
      | some name => .ok ⟨name, url, rest.head?⟩

/-- The fields of `EvmOpts` consumed by `get_fork` /
`get_block_storage_path`. `resolved_chain_id` is modelled from the spec:
`EvmOpts::get_chain_id` (chain id resolution) is external to the shown
source and the spec treats the chain id as already-materialized input. -/
structure EvmOpts where
  fork_url : Option (List Char)
  fork_block_number : Option Nat
  no_storage_caching : Bool
  resolved_chain_id : Nat

/-- Modelled from the spec: `StorageCachingConfig` (the `CachingPolicy`)
is external to the shown source; the spec treats it as an opaque oracle
exposing two boolean predicates, endpoint eligibility and chain-id
eligibility. -/
structure StorageCachingConfig where
  enable_for_endpoint : List Char → Bool
  enable_for_chain_id : Nat → Bool

/-- A storage-cache file location keyed by chain id and block number. -/
structure CacheFilePath where
  chain_id : Nat
  block : Nat
deriving DecidableEq, Repr

/-- Modelled from the spec: `Config::foundry_block_cache_file` is
external to the shown source; per the spec the cache path is computed
deterministically from (chain id, block number) as
`<chain-id>/<block-number>/storage.json` under the cache root. -/
def foundry_block_cache_file (chain_id block : Nat) : Option CacheFilePath :=
  some ⟨chain_id, block⟩

/-- Embedding of the nested `get_block_storage_path` helper of
`get_fork` in `utils.rs`. -/
def get_block_storage_path (evm_opts : EvmOpts) (config : StorageCachingConfig)
    (chain_id : Nat) : Option CacheFilePath :=
  if evm_opts.no_storage_caching then none
  else
    match evm_opts.fork_url with
    | none => none
    | some url =>
      match evm_opts.fork_block_number with
      | none => none
      | some block =>
        if config.enable_for_endpoint url && config.enable_for_chain_id chain_id then
          foundry_block_cache_file chain_id block
        else none

/-- The `Fork` value produced by `get_fork`. -/
structure Fork where
  url : List Char
  pin_block : Option Nat
  cache_path : Option CacheFilePath
  chain_id : Nat

/-- Embedding of `get_fork` in `utils.rs`. -/
def get_fork (evm_opts : EvmOpts) (config : StorageCachingConfig) : Option Fork :=
  match evm_opts.fork_url with
  | some url =>
    let chain_id := evm_opts.resolved_chain_id
    let cache_storage := get_block_storage_path evm_opts config chain_id
    some ⟨url, evm_opts.fork_block_number, cache_storage, chain_id⟩
  | none => none

theorem splitOnChar_ne_nil (c : Char) (s : List Char) : splitOnChar c s ≠ [] := by
  induction s with
  | nil => simp [splitOnChar]
  | cons a rest ih =>
    by_cases hac : a = c
    · simp [splitOnChar, hac]
    · rcases hsp : splitOnChar c rest with _ | ⟨g, gs⟩
      · exact absurd hsp ih
      · simp [splitOnChar, hac, hsp]

theorem splitOnChar_of_not_mem {c : Char} {s : List Char} (h : c ∉ s) :
    splitOnChar c s = [s] := by
  induction s with
  | nil => rfl
  | cons a rest ih =>
    have hac : ¬ a = c := fun he => h (he ▸ List.mem_cons_self a rest)
    have hr : c ∉ rest := fun hm => h (List.mem_cons_of_mem a hm)
    simp [splitOnChar, hac, ih hr]

theorem splitOnChar_append_cons (c : Char) (x y : List Char) :
    splitOnChar c (x ++ c :: y) = splitOnChar c x ++ splitOnChar c y := by
  induction x with
  | nil => simp [splitOnChar]
  | cons a x ih =>
    by_cases hac : a = c
    · simp [splitOnChar, hac, ih]
    · rcases hsp : splitOnChar c x with _ | ⟨g, gs⟩
      · exact absurd hsp (splitOnChar_ne_nil c x)
      · have hx : splitOnChar c (x ++ c :: y) = g :: (gs ++ splitOnChar c y) := by
          rw [ih, hsp]; rfl
        simp [splitOnChar, hac, hx, hsp]

theorem mem_splitOnChar_not_mem {c : Char} {s t : List Char}
    (h : t ∈ splitOnChar c s) : c ∉ t := by
  induction s generalizing t with
  | nil =>
    simp [splitOnChar] at h
    subst h; simp
  | cons a rest ih =>
    by_cases hac : a = c
    · simp only [splitOnChar, if_pos hac, List.mem_cons] at h
      rcases h with h | h
      · subst h; simp
      · exact ih h
    · rcases hsp : splitOnChar c rest with _ | ⟨g, gs⟩
      · exact absurd hsp (splitOnChar_ne_nil c rest)
      · simp only [splitOnChar, if_neg hac, hsp, List.mem_cons] at h
        rcases h with h | h
        · subst h
          intro hm
          rcases List.mem_cons.mp hm with h1 | h1
          · exact hac h1.symm
          · exact ih (by rw [hsp]; exact List.mem_cons_self g gs) h1
        · exact ih (by rw [hsp]; exact List.mem_cons_of_mem g h)

theorem beforeFirstChar_of_not_mem {c : Char} {s : List Char} (h : c ∉ s) :
    beforeFirstChar c s = s := by
  induction s with
  | nil => rfl
  | cons a rest ih =>
    have hac : ¬ a = c := fun he => h (he ▸ List.mem_cons_self a rest)
    have hr : c ∉ rest := fun hm => h (List.mem_cons_of_mem a hm)
    simp [beforeFirstChar, hac, ih hr]

theorem not_mem_beforeFirstChar (c : Char) (s : List Char) : c ∉ beforeFirstChar c s := by
  induction s with
  | nil => simp [beforeFirstChar]
  | cons a rest ih =>
    by_cases hac : a = c
    · simp [beforeFirstChar, hac]
    · simp only [beforeFirstChar, if_neg hac, List.mem_cons]
      rintro (h | h)
      · exact hac h.symm
      · exact ih h

theorem splitOnChar_decomp (c : Char) (s : List Char) :
    splitOnChar c s =
      beforeFirstChar c s ::
        (if c ∈ s then splitOnChar c (afterFirstChar c s) else []) := by
  induction s with
  | nil => simp [splitOnChar, beforeFirstChar]
  | cons a rest ih =>
    by_cases hac : a = c
    · subst hac
      simp [splitOnChar, beforeFirstChar, afterFirstChar]
    · have hmem : (c ∈ a :: rest) = (c ∈ rest) := by
        simp [List.mem_cons, (Ne.symm hac : c ≠ a)]
      simp only [splitOnChar, if_neg hac, ih, beforeFirstChar, afterFirstChar, hmem]

theorem splitOnce_eq (c : Char) (s : List Char) :
    splitOnce c s =
      if c ∈ s then some (beforeFirstChar c s, afterFirstChar c s) else none := by
  induction s with
  | nil => simp [splitOnce]
  | cons a rest ih =>
    by_cases hac : a = c
    · subst hac
      simp [splitOnce, beforeFirstChar, afterFirstChar]
    · have hmem : (c ∈ a :: rest) = (c ∈ rest) := by
        simp [List.mem_cons, (Ne.symm hac : c ≠ a)]
      by_cases hm : c ∈ rest
      · simp [splitOnce, hac, ih, hm, hmem, beforeFirstChar, afterFirstChar]
      · simp [splitOnce, hac, ih, hm, hmem, beforeFirstChar, afterFirstChar]

theorem afterLastChar_of_not_mem {c : Char} {s : List Char} (h : c ∉ s) :
    afterLastChar c s = s := by
  induction s with
  | nil => rfl
  | cons a rest ih =>
    have hac : ¬ a = c := fun he => h (he ▸ List.mem_cons_self a rest)
    have hr : c ∉ rest := fun hm => h (List.mem_cons_of_mem a hm)
    simp [afterLastChar, hac, hr]

theorem not_mem_afterLastChar (c : Char) (s : List Char) : c ∉ afterLastChar c s := by
  induction s with
  | nil => simp [afterLastChar]
  | cons a rest ih =>
    by_cases hm : c ∈ rest
    · simp only [afterLastChar, if_pos hm]
      exact ih
    · by_cases hac : a = c
      · simp only [afterLastChar, if_neg hm, if_pos hac]
        exact hm
      · simp only [afterLastChar, if_neg hm, if_neg hac, List.mem_cons]
        rintro (h | h)
        · exact hac h.symm
        · exact hm h

theorem beforeLast_afterLast_decomp {c : Char} {s : List Char} (h : c ∈ s) :
    beforeLastChar c s ++ c :: afterLastChar c s = s := by
  induction s with
  | nil => cases h
  | cons a rest ih =>
    by_cases hm : c ∈ rest
    · simp only [beforeLastChar, afterLastChar, if_pos hm, List.cons_append]
      rw [ih hm]
    · have hac : a = c := by
        rcases List.mem_cons.mp h with h1 | h1
        · exact h1.symm
        · exact absurd h1 hm
      simp [beforeLastChar, afterLastChar, hm, hac]

theorem afterLastChar_append {c : Char} {y : List Char} (x : List Char) (h : c ∉ y) :
    afterLastChar c (x ++ c :: y) = y := by
  induction x with
  | nil => simp [afterLastChar, h]
  | cons a x ih =>
    have hm : c ∈ x ++ c :: y := List.mem_append_right x (List.mem_cons_self c y)
    simp [afterLastChar, hm, ih]

theorem getLast?_splitOnChar (c : Char) (s : List Char) :
    (splitOnChar c s).getLast? = some (afterLastChar c s) := by
  by_cases hm : c ∈ s
  · have hni := not_mem_afterLastChar c s
    conv_lhs => rw [← beforeLast_afterLast_decomp hm]
    rw [splitOnChar_append_cons, splitOnChar_of_not_mem hni]
    exact List.getLast?_concat _
  · rw [splitOnChar_of_not_mem hm, afterLastChar_of_not_mem hm]
    rfl

theorem contractInfo_concat (bl al : List Char) (hni : ':' ∉ al) :
    ContractInfo.from_str (bl ++ ':' :: al) =
      (if (".sol").data.isSuffixOf (trimChars al) || (trimChars al).contains '/' then
        .error "contract source info format must be `<path>:<contractname>` or `<contractname>`"
      else .ok ⟨some (afterLastChar ':' bl), trimChars al⟩) := by
  unfold ContractInfo.from_str
  rw [splitOnChar_append_cons, splitOnChar_of_not_mem hni, List.reverse_append]
  simp only [List.reverse_cons, List.reverse_nil, List.nil_append, List.singleton_append]
  rw [List.head?_reverse, getLast?_splitOnChar]

/-- C1 counterexample: on `"a:b: C "` the code returns path `"b"` (the
segment between the last two colons, not everything before the last
colon) and name `"C"` (trimmed, not the raw text after the last colon). -/
theorem claim_C1_cex :
    ContractInfo.from_str ("a:b: C ").data = .ok ⟨some (("b").data), ("C").data⟩ ∧
    ("b").data ≠ ("a:b").data ∧ ("C").data ≠ (" C ").data := by decide

/-- C1 (amended): for every input containing a colon, `ContractInfo.from_str`
returns name = the whitespace-trimmed text after the last colon and path =
`some` of the last colon-segment of the prefix before the last colon (not
everything before it), failing exactly when that trimmed name ends in
`.sol` or contains `/`. -/
theorem claim_C1 (s : List Char) (h : ':' ∈ s) :
    ContractInfo.from_str s =
      (if (".sol").data.isSuffixOf (trimChars (afterLastChar ':' s)) ||
          (trimChars (afterLastChar ':' s)).contains '/' then
        .error "contract source info format must be `<path>:<contractname>` or `<contractname>`"
      else .ok ⟨some (afterLastChar ':' (beforeLastChar ':' s)),
        trimChars (afterLastChar ':' s)⟩) := by
  have hd := beforeLast_afterLast_decomp h
  have hni := not_mem_afterLastChar ':' s
  conv_lhs => rw [← hd]
  rw [contractInfo_concat _ _ hni]

/-- C1 witness: the amended characterization applied at `"src/A.sol:B"`. -/
theorem claim_C1_witness :
    ContractInfo.from_str ("src/A.sol:B").data =
      .ok ⟨some (("src/A.sol").data), ("B").data⟩ := by
  rw [claim_C1 (("src/A.sol:B").data) (by decide)]
  decide

/-- C9 counterexample: on `"p: N "` the returned name is the trimmed
`"N"`, not the raw text `" N "` after the first colon. -/
theorem claim_C9_cex :
    FullContractInfo.from_str ("p: N ").data = .ok ⟨("p").data, ("N").data⟩ ∧
    ("N").data ≠ (" N ").data := by decide

/-- C9 (amended): `FullContractInfo.from_str` fails exactly when the input
has no colon; otherwise it splits at the first colon, the path is the
verbatim text before it and the name is the whitespace-trimmed text
after it. -/
theorem claim_C9 (s : List Char) :
    (':' ∈ s → FullContractInfo.from_str s =
      .ok ⟨beforeFirstChar ':' s, trimChars (afterFirstChar ':' s)⟩) ∧
    (':' ∉ s → FullContractInfo.from_str s =
      .error ("Expected `<path>:<contractname>`, got `" ++ String.mk s ++ "`")) := by
  unfold FullContractInfo.from_str
  rw [splitOnce_eq]
  constructor
  · intro h; simp [h]
  · intro h; simp [h]

/-- C9 witness: the amended characterization applied at `"path:Name"`
and `"NoColonHere"`. -/
theorem claim_C9_witness :
    FullContractInfo.from_str ("path:Name").data = .ok ⟨("path").data, ("Name").data⟩ ∧
    FullContractInfo.from_str ("NoColonHere").data =
      .error "Expected `<path>:<contractname>`, got `NoColonHere`" := by
  constructor
  · rw [(claim_C9 (("path:Name").data)).1 (by decide)]; decide
  · rw [(claim_C9 (("NoColonHere").data)).2 (by decide)]; decide

/-- C10: in both locator parsers a returned name is the
whitespace-trimmed raw segment while a returned path is the raw segment
verbatim. -/
theorem claim_C10 :
    (∀ s r, ContractInfo.from_str s = .ok r →
      r.name = trimChars (afterLastChar ':' s) ∧
      r.path = if ':' ∈ s then some (afterLastChar ':' (beforeLastChar ':' s)) else none) ∧
    (∀ s r, FullContractInfo.from_str s = .ok r →
      r.name = trimChars (afterFirstChar ':' s) ∧ r.path = beforeFirstChar ':' s) := by
  constructor
  · intro s r h
    by_cases hm : ':' ∈ s
    · have hd := beforeLast_afterLast_decomp hm
      have hni := not_mem_afterLastChar ':' s
      rw [← hd, contractInfo_concat _ _ hni] at h
      split_ifs at h with hbad
      all_goals cases h
      all_goals simp [hm]
    · unfold ContractInfo.from_str at h
      rw [splitOnChar_of_not_mem hm] at h
      simp only [List.reverse_cons, List.reverse_nil, List.nil_append] at h
      split_ifs at h with hbad
      all_goals cases h
      all_goals simp [afterLastChar_of_not_mem hm, hm]
  · intro s r h
    unfold FullContractInfo.from_str at h
    rw [splitOnce_eq] at h
    by_cases hm : ':' ∈ s
    · simp only [if_pos hm, Except.ok.injEq] at h
      subst h
      exact ⟨rfl, rfl⟩
    · simp [hm] at h

/-- C10 witness: the example `"src/A.sol: B "` parses with trimmed name
`"B"` and verbatim path `"src/A.sol"`. -/
theorem claim_C10_witness :
    ("B").data = trimChars (afterLastChar ':' ("src/A.sol: B ").data) ∧
    (some (("src/A.sol").data) : Option (List Char)) =
      (if ':' ∈ ("src/A.sol: B ").data
       then some (afterLastChar ':' (beforeLastChar ':' ("src/A.sol: B ").data)) else none) :=
  claim_C10.1 (("src/A.sol: B ").data) ⟨some (("src/A.sol").data), ("B").data⟩ (by decide)

theorem head?_splitOnChar (c : Char) (s : List Char) :
    (splitOnChar c s).head? = some (beforeFirstChar c s) := by
  rw [splitOnChar_decomp]
  rfl

theorem dep_from_str_err (s : List Char) (e : String)
    (hw : urlWithVersion s = .error e) : Dependency.from_str s = .error e := by
  unfold Dependency.from_str
  rw [hw]

theorem dep_from_str_ok (s w : List Char) (hw : urlWithVersion s = .ok w) :
    Dependency.from_str s =
      .ok ⟨afterLastChar '/' (beforeFirstChar '@' w), beforeFirstChar '@' w,
        if '@' ∈ w then some (beforeFirstChar '@' (afterFirstChar '@' w)) else none⟩ := by
  unfold Dependency.from_str
  rw [hw]
  by_cases hm : '@' ∈ w
  · have hts : splitOnChar '@' w =
        beforeFirstChar '@' w :: splitOnChar '@' (afterFirstChar '@' w) := by
      rw [splitOnChar_decomp '@' w, if_pos hm]
    simp only [hts, getLast?_splitOnChar, head?_splitOnChar, if_pos hm]
  · have hts : splitOnChar '@' w = [beforeFirstChar '@' w] := by
      rw [splitOnChar_decomp '@' w, if_neg hm]
    simp only [hts, getLast?_splitOnChar, if_neg hm]
    rfl

/-- C3: the fork storage-cache decision of `get_fork` yields a cache path
exactly when the fork url is present, a fork block number is pinned,
`no_storage_caching` is unset, and both policy predicates (endpoint and
chain-id eligibility) hold; in particular it is disabled whenever the
url is absent, the opt-out is set, or the block is absent, regardless of
the policy. -/
theorem claim_C3 (evm_opts : EvmOpts) (config : StorageCachingConfig) :
    ((get_fork evm_opts config).bind Fork.cache_path).isSome = true ↔
      ∃ u b, evm_opts.fork_url = some u ∧ evm_opts.fork_block_number = some b ∧
        evm_opts.no_storage_caching = false ∧
        config.enable_for_endpoint u = true ∧
        config.enable_for_chain_id evm_opts.resolved_chain_id = true := by
  rcases hurl : evm_opts.fork_url with _ | u
  · simp [get_fork, hurl]
  · rcases hb : evm_opts.fork_block_number with _ | b
    · cases hnsc : evm_opts.no_storage_caching <;>
        simp [get_fork, get_block_storage_path, foundry_block_cache_file, hurl, hb, hnsc]
    · cases hnsc : evm_opts.no_storage_caching <;>
        cases he : config.enable_for_endpoint u <;>
        cases hc : config.enable_for_chain_id evm_opts.resolved_chain_id <;>
          simp [get_fork, get_block_storage_path, foundry_block_cache_file,
            hurl, hb, hnsc, he, hc]

/-- C2 counterexample: `"a/b/"` resolves successfully with an empty
name (the resolved url ends in `/`), refuting non-emptiness of `name`. -/
theorem claim_C2_cex :
    Dependency.from_str ("a/b/").data =
      .ok ⟨[], ("https://github.com/a/b/").data, none⟩ := by decide

/-- C2 (amended): for every input on which `Dependency.from_str`
succeeds the returned url contains no `@`; the non-emptiness half of the
original claim is dropped, since the returned name can be empty. -/
theorem claim_C2 (s : List Char) (d : Dependency)
    (h : Dependency.from_str s = .ok d) : '@' ∉ d.url := by
  rcases hw : urlWithVersion s with e | w
  · rw [dep_from_str_err s e hw] at h
    cases h
  · rw [dep_from_str_ok s w hw] at h
    cases h
    exact not_mem_beforeFirstChar '@' w

/-- C2 witness: the no-`@` invariant applied at `"gakonst/lootloose"`. -/
theorem claim_C2_witness :
    '@' ∉ ("https://github.com/gakonst/lootloose").data :=
  claim_C2 (("gakonst/lootloose").data)
    ⟨("lootloose").data, ("https://github.com/gakonst/lootloose").data, none⟩ (by decide)

/-- C4 counterexample: on `"gakonst/lootloose@v1@x"` the ref is `"v1"`
(the segment between the first and second `@`), not everything after
the first `@` (`"v1@x"`); and on `"a/b@"` a ref is returned (the empty
string) although nothing follows the first `@`. -/
theorem claim_C4_cex :
    (Dependency.from_str ("gakonst/lootloose@v1@x").data =
      .ok ⟨("lootloose").data, ("https://github.com/gakonst/lootloose").data,
        some (("v1").data)⟩ ∧
     ("v1").data ≠ ("v1@x").data) ∧
    Dependency.from_str ("a/b@").data =
      .ok ⟨("b").data, ("https://github.com/a/b").data, some []⟩ := by decide

/-- C4 (amended): the url is the text of the normalized string before
its first `@`; a ref is returned exactly when the normalized string
contains an `@` (even as its last character), and it is the possibly
empty text between the first and second `@` (anything after a second
`@` is dropped) — a two-way split for the url, but the ref is only the
next split segment, not the whole remainder. -/
theorem claim_C4 (s w : List Char) (d : Dependency)
    (hw : urlWithVersion s = .ok w) (h : Dependency.from_str s = .ok d) :
    d.url = beforeFirstChar '@' w ∧
    d.tag = (if '@' ∈ w then some (beforeFirstChar '@' (afterFirstChar '@' w)) else none) := by
  rw [dep_from_str_ok s w hw] at h
  cases h
  exact ⟨rfl, rfl⟩

/-- C4 witness: the amended split characterization applied at
`"gakonst/lootloose@v1@x"`. -/
theorem claim_C4_witness :
    ("https://github.com/gakonst/lootloose").data =
      beforeFirstChar '@' (("https://github.com/gakonst/lootloose@v1@x").data) ∧
    (some (("v1").data) : Option (List Char)) =
      (if '@' ∈ ("https://github.com/gakonst/lootloose@v1@x").data
       then some (beforeFirstChar '@'
         (afterFirstChar '@' (("https://github.com/gakonst/lootloose@v1@x").data)))
       else none) :=
  claim_C4 (("gakonst/lootloose@v1@x").data)
    (("https://github.com/gakonst/lootloose@v1@x").data)
    ⟨("lootloose").data, ("https://github.com/gakonst/lootloose").data, some (("v1").data)⟩
    (by decide) (by decide)

theorem all_mem_takeWhile (p : Char → Bool) (l : List Char) :
    ∀ x ∈ l.takeWhile p, p x = true := by
  induction l with
  | nil => simp
  | cons a rest ih =>
    by_cases hp : p a = true
    · rw [List.takeWhile_cons, if_pos hp]
      intro x hx
      rcases List.mem_cons.mp hx with h1 | h1
      · subst h1; exact hp
      · exact ih x h1
    · rw [List.takeWhile_cons, if_neg hp]
      simp

theorem takeWhile_app_all {p : Char → Bool} {l : List Char}
    (h : ∀ x ∈ l, p x = true) (r : List Char) :
    (l ++ r).takeWhile p = l ++ r.takeWhile p := by
  induction l with
  | nil => simp
  | cons a rest ih =>
    have ha := h a (List.mem_cons_self a rest)
    simp [List.takeWhile_cons, ha,
      ih (fun x hx => h x (List.mem_cons_of_mem a hx))]

theorem dropWhile_app_all {p : Char → Bool} {l : List Char}
    (h : ∀ x ∈ l, p x = true) (r : List Char) :
    (l ++ r).dropWhile p = r.dropWhile p := by
  induction l with
  | nil => simp
  | cons a rest ih =>
    have ha := h a (List.mem_cons_self a rest)
    simp [List.dropWhile_cons, ha,
      ih (fun x hx => h x (List.mem_cons_of_mem a hx))]

theorem takeWhile_stop {p : Char → Bool} {l : List Char} {y : Char}
    (h : ∀ x ∈ l, p x = true) (hy : p y = false) (r : List Char) :
    (l ++ y :: r).takeWhile p = l := by
  rw [takeWhile_app_all h]
  simp [List.takeWhile_cons, hy]

theorem dropWhile_stop {p : Char → Bool} {l : List Char} {y : Char}
    (h : ∀ x ∈ l, p x = true) (hy : p y = false) (r : List Char) :
    (l ++ y :: r).dropWhile p = y :: r := by
  rw [dropWhile_app_all h]
  simp [List.dropWhile_cons, hy]

theorem isPrefixOf_append_self (l r : List Char) : l.isPrefixOf (l ++ r) = true := by
  induction l with
  | nil => simp [List.isPrefixOf]
  | cons a rest ih => simp [List.isPrefixOf, ih]

theorem mem_of_isPrefixOf {l t : List Char} (h : l.isPrefixOf t = true) :
    ∀ x ∈ l, x ∈ t := by
  induction l generalizing t with
  | nil => simp
  | cons a l ih =>
    cases t with
    | nil => cases h
    | cons b t =>
      simp only [List.isPrefixOf, Bool.and_eq_true, beq_iff_eq] at h
      obtain ⟨hab, h2⟩ := h
      intro x hx
      rcases List.mem_cons.mp hx with h3 | h3
      · subst h3
        rw [hab]
        exact List.mem_cons_self b t
      · exact List.mem_cons_of_mem b (ih h2 x h3)

theorem hostChar_ne {x : Char} (h : isHostChar x = true) :
    x ≠ '@' ∧ x ≠ '.' ∧ x ≠ '/' ∧ x ≠ ':' ∧ x ≠ '+' := by
  refine ⟨?_, ?_, ?_, ?_, ?_⟩ <;> rintro rfl <;> exact absurd h (by decide)

theorem ownerChar_ne {x : Char} (h : isOwnerChar x = true) :
    x ≠ '@' ∧ x ≠ '.' ∧ x ≠ '/' ∧ x ≠ ':' ∧ x ≠ '+' := by
  refine ⟨?_, ?_, ?_, ?_, ?_⟩ <;> rintro rfl <;> exact absurd h (by decide)

theorem repoChar_ne {x : Char} (h : isRepoChar x = true) :
    x ≠ '@' ∧ x ≠ '/' ∧ x ≠ ':' ∧ x ≠ '+' := by
  refine ⟨?_, ?_, ?_, ?_⟩ <;> rintro rfl <;> exact absurd h (by decide)

theorem takeWhile_append_dropWhile_eq (p : Char → Bool) (l : List Char) :
    l.takeWhile p ++ l.dropWhile p = l := List.takeWhile_append_dropWhile p l

theorem hostTldSepAt_sound {t h tl : List Char} {sep : Char} {r : List Char}
    (hmt : hostTldSepAt t = some (h, tl, sep, r)) :
    h ≠ [] ∧ (∀ x ∈ h, isHostChar x = true) ∧ tl ≠ [] ∧
      (∀ x ∈ tl, isHostChar x = true) ∧ (sep = '/' ∨ sep = ':') ∧
      t = h ++ '.' :: (tl ++ sep :: r) := by
  simp only [hostTldSepAt] at hmt
  split at hmt
  · cases hmt
  · rename_i hne
    split at hmt
    · rename_i r2 heq
      split at hmt
      · cases hmt
      · rename_i htlne
        split at hmt
        · rename_i c r4 heq2
          split at hmt
          · rename_i hsep
            cases hmt
            have hdec1 : t = t.takeWhile isHostChar ++ ('.' :: r2) := by
              conv_lhs => rw [← takeWhile_append_dropWhile_eq isHostChar t]
              rw [heq]
            have hdec2 : r2 = r2.takeWhile isHostChar ++ (sep :: r) := by
              conv_lhs => rw [← takeWhile_append_dropWhile_eq isHostChar r2]
              rw [heq2]
            refine ⟨?_, all_mem_takeWhile _ _, ?_, all_mem_takeWhile _ _, ?_, ?_⟩
            · intro hnil
              rw [hnil] at hne
              exact hne rfl
            · intro hnil
              rw [hnil] at htlne
              exact htlne rfl
            · simpa [Bool.or_eq_true, decide_eq_true_eq] using hsep
            · conv_lhs => rw [hdec1, hdec2]
          · cases hmt
        · cases hmt
    · cases hmt

theorem hostTldSepAt_build {h tl : List Char} (sep : Char) (rest : List Char)
    (hh : h ≠ []) (hha : ∀ x ∈ h, isHostChar x = true)
    (ht : tl ≠ []) (hta : ∀ x ∈ tl, isHostChar x = true)
    (hsep : sep = '/' ∨ sep = ':') :
    hostTldSepAt (h ++ '.' :: (tl ++ sep :: rest)) = some (h, tl, sep, rest) := by
  have hdot : isHostChar '.' = false := by decide
  have hsepf : isHostChar sep = false := by
    rcases hsep with h1 | h1 <;> subst h1 <;> decide
  have hsept : (decide (sep = '/') || decide (sep = ':')) = true := by
    rcases hsep with h1 | h1 <;> simp [h1]
  simp only [hostTldSepAt, takeWhile_stop hha hdot, dropWhile_stop hha hdot,
    takeWhile_stop hta hsepf, dropWhile_stop hta hsepf]
  rcases h with _ | ⟨a, h⟩
  · exact absurd rfl hh
  · rcases tl with _ | ⟨b, tl⟩
    · exact absurd rfl ht
    · simp [hsept]

theorem matchAtPos_none_of {t : List Char}
    (h0 : hostTldSepAt t = none) (h4 : hostTldSepAt (t.drop 4) = none)
    (h8 : hostTldSepAt (t.drop 8) = none) (h12 : hostTldSepAt (t.drop 12) = none) :
    matchAtPos t = none := by
  unfold matchAtPos matchNoScheme
  rw [h0, h4, h8, h12]
  split
  · rfl
  · split
    · rfl
    · split
      · rfl
      · rfl

theorem findPrefixMatch_none {s : List Char}
    (h : ∀ t, t <:+ s → matchAtPos t = none) : findPrefixMatch s = none := by
  induction s with
  | nil => rfl
  | cons a rest ih =>
    have h0 := h (a :: rest) (List.suffix_refl _)
    have hrest := ih (fun t ht => h t (ht.trans (List.suffix_cons a rest)))
    simp [findPrefixMatch, h0, hrest]

theorem findPrefixMatch_of_match {u : List Char} {h t r : List Char}
    (hne : u ≠ []) (hm : matchAtPos u = some (h, t, r)) :
    findPrefixMatch u = some ([], h, t, r) := by
  cases u with
  | nil => exact absurd rfl hne
  | cons a s => simp [findPrefixMatch, hm]

theorem ghAfterOwner_mem_slash {t : List Char} (h : ghAfterOwner t = true) : '/' ∈ t := by
  induction t with
  | nil => cases h
  | cons c rest ih =>
    by_cases hc : c = '/'
    · subst hc
      exact List.mem_cons_self _ _
    · simp only [ghAfterOwner, if_neg hc] at h
      by_cases ho : isOwnerChar c = true
      · rw [if_pos ho] at h
        exact List.mem_cons_of_mem c (ih h)
      · rw [if_neg ho] at h
        cases h

theorem ghRepoIsMatch_false {s : List Char} (h : '/' ∉ s) : ghRepoIsMatch s = false := by
  induction s with
  | nil => rfl
  | cons a rest ih =>
    have hrest : '/' ∉ rest := fun hx => h (List.mem_cons_of_mem a hx)
    have hga : ghAfterOwner rest = false := by
      cases hoa : ghAfterOwner rest
      · rfl
      · exact absurd (List.mem_cons_of_mem a (ghAfterOwner_mem_slash hoa)) h
    simp [ghRepoIsMatch, ghMatchAt, hga, ih hrest]

theorem hostTldSep_none_no_sep {t : List Char} (h1 : '/' ∉ t) (h2 : ':' ∉ t) :
    hostTldSepAt t = none := by
  rcases hmt : hostTldSepAt t with _ | ⟨h', tl, sep, r⟩
  · rfl
  · exfalso
    obtain ⟨_, _, _, _, hsep, hdec⟩ := hostTldSepAt_sound hmt
    have hmem : sep ∈ t := by
      rw [hdec]
      exact List.mem_append_right h'
        (List.mem_cons_of_mem '.' (List.mem_append_right tl (List.mem_cons_self sep r)))
    rcases hsep with rfl | rfl
    · exact h1 hmem
    · exact h2 hmem

theorem matchAtPos_none_no_sep {t : List Char} (h1 : '/' ∉ t) (h2 : ':' ∉ t) :
    matchAtPos t = none := by
  have hdropmem : ∀ n (x : Char), x ∈ t.drop n → x ∈ t := by
    intro n x hx
    exact (List.drop_suffix n t).subset hx
  exact matchAtPos_none_of (hostTldSep_none_no_sep h1 h2)
    (hostTldSep_none_no_sep (fun hx => h1 (hdropmem 4 _ hx)) (fun hx => h2 (hdropmem 4 _ hx)))
    (hostTldSep_none_no_sep (fun hx => h1 (hdropmem 8 _ hx)) (fun hx => h2 (hdropmem 8 _ hx)))
    (hostTldSep_none_no_sep (fun hx => h1 (hdropmem 12 _ hx)) (fun hx => h2 (hdropmem 12 _ hx)))

/-- C7 counterexample: `"a.b:c"` contains no `/` yet resolves
successfully through the host-prefix pattern with the `:` separator. -/
theorem claim_C7_cex :
    Dependency.from_str ("a.b:c").data =
      .ok ⟨("c").data, ("https://a.b/c").data, none⟩ ∧
    '/' ∉ ("a.b:c").data := by decide

/-- C7 (amended): every input containing neither `/` nor `:` fails
dependency resolution with the invalid-repository error; an input
without `/` can still succeed when it matches the host-prefix pattern
with the `:` separator (for example `"a.b:c"`). -/
theorem claim_C7 (s : List Char) (h1 : '/' ∉ s) (h2 : ':' ∉ s) :
    Dependency.from_str s =
      .error ("invalid github repository name `" ++ String.mk s ++ "`") := by
  have hfp : findPrefixMatch s = none :=
    findPrefixMatch_none (fun t ht =>
      matchAtPos_none_no_sep (fun hx => h1 (ht.subset hx)) (fun hx => h2 (ht.subset hx)))
  have hgh : ghRepoIsMatch s = false := ghRepoIsMatch_false h1
  have hw : urlWithVersion s = .error ("invalid github repository name `" ++ String.mk s ++ "`") := by
    unfold urlWithVersion
    rw [hfp]
    simp [hgh]
  exact dep_from_str_err _ _ hw

/-- C7 witness: the amended rejection rule applied at `"solmate"`. -/
theorem claim_C7_witness :
    Dependency.from_str ("solmate").data =
      .error "invalid github repository name `solmate`" := by
  rw [claim_C7 (("solmate").data) (by decide) (by decide)]
  decide

theorem beforeFirst_app_ne {c : Char} {l : List Char} (h : ∀ x ∈ l, x ≠ c)
    (m : List Char) : beforeFirstChar c (l ++ m) = l ++ beforeFirstChar c m := by
  induction l with
  | nil => simp
  | cons a rest ih =>
    have ha := h a (List.mem_cons_self a rest)
    simp [beforeFirstChar, ha, ih (fun x hx => h x (List.mem_cons_of_mem a hx))]

theorem beforeFirst_stop {c : Char} {l : List Char} (h : ∀ x ∈ l, x ≠ c)
    (r : List Char) : beforeFirstChar c (l ++ c :: r) = l := by
  rw [beforeFirst_app_ne h]
  simp [beforeFirstChar]

theorem suffix_append_split {t l m : List Char} (h : t <:+ l ++ m) :
    t <:+ m ∨ ∃ l2, l2 <:+ l ∧ t = l2 ++ m := by
  induction l with
  | nil => left; simpa using h
  | cons a l ih =>
    rcases List.suffix_cons_iff.mp (by simpa using h) with h1 | h1
    · right
      exact ⟨a :: l, List.suffix_refl _, by simp [h1]⟩
    · rcases ih h1 with h2 | ⟨l2, h2, h3⟩
      · left; exact h2
      · right; exact ⟨l2, h2.trans (List.suffix_cons a l), h3⟩

theorem c5_hostTldSep_none {owner repo t : List Char}
    (hoa : ∀ x ∈ owner, isOwnerChar x = true) (hra : ∀ x ∈ repo, isRepoChar x = true)
    (ht : t <:+ owner ++ '/' :: repo) : hostTldSepAt t = none := by
  rcases hmt : hostTldSepAt t with _ | ⟨h', tl, sep, r⟩
  · rfl
  · exfalso
    obtain ⟨hne, hall, _, htlall, hsep, hdec⟩ := hostTldSepAt_sound hmt
    have hsepmem : sep ∈ t := by
      rw [hdec]
      exact List.mem_append_right h'
        (List.mem_cons_of_mem '.' (List.mem_append_right tl (List.mem_cons_self sep r)))
    rcases hsep with rfl | rfl
    · rcases suffix_append_split ht with hts | ⟨o2, ho2, heqt⟩
      · rcases List.suffix_cons_iff.mp hts with h1 | h1
        · rcases h' with _ | ⟨hh, h''⟩
          · exact hne rfl
          · have hcomb := hdec.symm.trans h1
            simp only [List.cons_append, List.cons.injEq] at hcomb
            exact absurd (hcomb.1 ▸ hall hh (List.mem_cons_self hh h'')) (by decide)
        · exact absurd (hra _ (h1.subset hsepmem)) (by decide)
      · have ho2c : ∀ x ∈ o2, isOwnerChar x = true := fun x hx => hoa x (ho2.subset hx)
        have e1 : beforeFirstChar '/' t = o2 := by
          rw [heqt]
          exact beforeFirst_stop (fun x hx => (ownerChar_ne (ho2c x hx)).2.2.1) repo
        have e2 : beforeFirstChar '/' t = h' ++ '.' :: tl := by
          rw [hdec]
          rw [beforeFirst_app_ne (fun x hx => (hostChar_ne (hall x hx)).2.2.1)]
          have hdotslash : ¬ ('.' : Char) = '/' := by decide
          simp only [beforeFirstChar, if_neg hdotslash]
          rw [beforeFirst_stop (fun x hx => (hostChar_ne (htlall x hx)).2.2.1) r]
        have hdot2 : '.' ∈ o2 := by
          rw [e1.symm.trans e2]
          exact List.mem_append_right h' (List.mem_cons_self '.' tl)
        exact absurd (hoa '.' (ho2.subset hdot2)) (by decide)
    · have hx := ht.subset hsepmem
      rcases List.mem_append.mp hx with hx | hx
      · exact absurd (hoa _ hx) (by decide)
      · rcases List.mem_cons.mp hx with hx | hx
        · exact absurd hx (by decide)
        · exact absurd (hra _ hx) (by decide)

theorem ghAfterOwner_build {o : List Char} {b : Char} (r : List Char)
    (ho : ∀ x ∈ o, isOwnerChar x = true) (hb : isRepoChar b = true) :
    ghAfterOwner (o ++ '/' :: b :: r) = true := by
  induction o with
  | nil => simp [ghAfterOwner, hb]
  | cons a o ih =>
    have ha := ho a (List.mem_cons_self a o)
    have hane : ¬ a = '/' := (ownerChar_ne ha).2.2.1
    simp [ghAfterOwner, hane, ha, ih (fun x hx => ho x (List.mem_cons_of_mem a hx))]

/-- C5: every GitHub shorthand `owner/repo` (nonempty owner over
letters, digits, hyphens; nonempty repo over letters, digits,
underscores, dots, hyphens) resolves to
`https://github.com/owner/repo` with no ref and name = repo. -/
theorem claim_C5 (owner repo : List Char)
    (hone : owner ≠ []) (hoa : ∀ x ∈ owner, isOwnerChar x = true)
    (hrne : repo ≠ []) (hra : ∀ x ∈ repo, isRepoChar x = true) :
    Dependency.from_str (owner ++ '/' :: repo) =
      .ok ⟨repo, ("https://github.com/").data ++ (owner ++ '/' :: repo), none⟩ := by
  have hfp : findPrefixMatch (owner ++ '/' :: repo) = none :=
    findPrefixMatch_none (fun t ht =>
      matchAtPos_none_of (c5_hostTldSep_none hoa hra ht)
        (c5_hostTldSep_none hoa hra ((List.drop_suffix 4 t).trans ht))
        (c5_hostTldSep_none hoa hra ((List.drop_suffix 8 t).trans ht))
        (c5_hostTldSep_none hoa hra ((List.drop_suffix 12 t).trans ht)))
  rcases owner with _ | ⟨a, o⟩
  · exact absurd rfl hone
  rcases repo with _ | ⟨b, r⟩
  · exact absurd rfl hrne
  have hb : isRepoChar b = true := hra b (List.mem_cons_self b r)
  have hgh : ghRepoIsMatch (a :: (o ++ '/' :: b :: r)) = true := by
    have ha := hoa a (List.mem_cons_self a o)
    have hafter : ghAfterOwner (o ++ '/' :: b :: r) = true :=
      ghAfterOwner_build r (fun x hx => hoa x (List.mem_cons_of_mem a hx)) hb
    simp [ghRepoIsMatch, ghMatchAt, ha, hafter]
  have hw : urlWithVersion ((a :: o) ++ '/' :: b :: r) =
      .ok (("https://github.com/").data ++ ((a :: o) ++ '/' :: b :: r)) := by
    unfold urlWithVersion
    rw [hfp]
    simp [hgh]
  rw [dep_from_str_ok _ _ hw]
  have hat : '@' ∉ ("https://github.com/").data ++ ((a :: o) ++ '/' :: b :: r) := by
    intro hx
    rcases List.mem_append.mp hx with hx | hx
    · exact absurd hx (by decide)
    · rcases List.mem_append.mp hx with hx | hx
      · exact absurd (hoa _ hx) (by decide)
      · rcases List.mem_cons.mp hx with hx | hx
        · exact absurd hx (by decide)
        · exact absurd (hra _ hx) (by decide)
  have hname : afterLastChar '/'
      (("https://github.com/").data ++ ((a :: o) ++ '/' :: b :: r)) = b :: r := by
    have hassoc : ("https://github.com/").data ++ ((a :: o) ++ '/' :: b :: r) =
        (("https://github.com/").data ++ (a :: o)) ++ '/' :: (b :: r) := by
      simp [List.append_assoc]
    rw [hassoc]
    exact afterLastChar_append _ (fun hx => absurd (hra _ hx) (by decide))
  rw [beforeFirstChar_of_not_mem hat, if_neg hat, hname]

/-- C5 witness: the shorthand rule applied at `"gakonst/lootloose"`. -/
theorem claim_C5_witness :
    Dependency.from_str (("gakonst").data ++ '/' :: ("lootloose").data) =
      .ok ⟨("lootloose").data,
        ("https://github.com/").data ++ (("gakonst").data ++ '/' :: ("lootloose").data),
        none⟩ :=
  claim_C5 (("gakonst").data) (("lootloose").data)
    (by decide) (by decide) (by decide) (by decide)

theorem matchAtPos_https (sep : Char) (project : List Char) {host tld : List Char}
    (hh : host ≠ []) (hha : ∀ x ∈ host, isHostChar x = true)
    (ht : tld ≠ []) (hta : ∀ x ∈ tld, isHostChar x = true)
    (hsep : sep = '/' ∨ sep = ':') :
    matchAtPos (("https://").data ++ (host ++ '.' :: (tld ++ sep :: project))) =
      some (host, tld, project) := by
  have h1 : ("git@").data.isPrefixOf
      (("https://").data ++ (host ++ '.' :: (tld ++ sep :: project))) = false := rfl
  have h2 : ("git+https://").data.isPrefixOf
      (("https://").data ++ (host ++ '.' :: (tld ++ sep :: project))) = false := rfl
  have h3 : ("https://").data.isPrefixOf
      (("https://").data ++ (host ++ '.' :: (tld ++ sep :: project))) = true :=
    isPrefixOf_append_self _ _
  have hdrop : ((("https://").data ++ (host ++ '.' :: (tld ++ sep :: project))).drop 8) =
      host ++ '.' :: (tld ++ sep :: project) := rfl
  simp [matchAtPos, h1, h2, h3, hdrop,
    hostTldSepAt_build sep project hh hha ht hta hsep]

theorem matchAtPos_gitat (sep : Char) (project : List Char) {host tld : List Char}
    (hh : host ≠ []) (hha : ∀ x ∈ host, isHostChar x = true)
    (ht : tld ≠ []) (hta : ∀ x ∈ tld, isHostChar x = true)
    (hsep : sep = '/' ∨ sep = ':') :
    matchAtPos (("git@").data ++ (host ++ '.' :: (tld ++ sep :: project))) =
      some (host, tld, project) := by
  have h1 : ("git@").data.isPrefixOf
      (("git@").data ++ (host ++ '.' :: (tld ++ sep :: project))) = true :=
    isPrefixOf_append_self _ _
  have hdrop : ((("git@").data ++ (host ++ '.' :: (tld ++ sep :: project))).drop 4) =
      host ++ '.' :: (tld ++ sep :: project) := rfl
  simp [matchAtPos, h1, hdrop,
    hostTldSepAt_build sep project hh hha ht hta hsep]

theorem matchAtPos_gitplus (sep : Char) (project : List Char) {host tld : List Char}
    (hh : host ≠ []) (hha : ∀ x ∈ host, isHostChar x = true)
    (ht : tld ≠ []) (hta : ∀ x ∈ tld, isHostChar x = true)
    (hsep : sep = '/' ∨ sep = ':') :
    matchAtPos (("git+https://").data ++ (host ++ '.' :: (tld ++ sep :: project))) =
      some (host, tld, project) := by
  have h1 : ("git@").data.isPrefixOf
      (("git+https://").data ++ (host ++ '.' :: (tld ++ sep :: project))) = false := rfl
  have h2 : ("git+https://").data.isPrefixOf
      (("git+https://").data ++ (host ++ '.' :: (tld ++ sep :: project))) = true :=
    isPrefixOf_append_self _ _
  have hdrop : ((("git+https://").data ++ (host ++ '.' :: (tld ++ sep :: project))).drop 12) =
      host ++ '.' :: (tld ++ sep :: project) := rfl
  simp [matchAtPos, h1, h2, hdrop,
    hostTldSepAt_build sep project hh hha ht hta hsep]

theorem matchAtPos_sound {u b t r : List Char} (h : matchAtPos u = some (b, t, r)) :
    b ≠ [] ∧ (∀ x ∈ b, isHostChar x = true) ∧ t ≠ [] ∧
      (∀ x ∈ t, isHostChar x = true) := by
  have hmn : ∀ hv : matchNoScheme u = some (b, t, r),
      b ≠ [] ∧ (∀ x ∈ b, isHostChar x = true) ∧ t ≠ [] ∧
        (∀ x ∈ t, isHostChar x = true) := by
    intro hv
    unfold matchNoScheme at hv
    cases hh : hostTldSepAt u with
    | none => rw [hh] at hv; cases hv
    | some x =>
      obtain ⟨b1, t1, s1, r1⟩ := x
      rw [hh] at hv
      cases hv
      obtain ⟨hne, hall, htne, htall, _, _⟩ := hostTldSepAt_sound hh
      exact ⟨hne, hall, htne, htall⟩
  unfold matchAtPos at h
  split at h
  · split at h
    · rename_i b1 t1 s1 r1 heq
      cases h
      obtain ⟨hne, hall, htne, htall, _, _⟩ := hostTldSepAt_sound heq
      exact ⟨hne, hall, htne, htall⟩
    · exact hmn h
  · split at h
    · split at h
      · rename_i b1 t1 s1 r1 heq
        cases h
        obtain ⟨hne, hall, htne, htall, _, _⟩ := hostTldSepAt_sound heq
        exact ⟨hne, hall, htne, htall⟩
      · exact hmn h
    · split at h
      · split at h
        · rename_i b1 t1 s1 r1 heq
          cases h
          obtain ⟨hne, hall, htne, htall, _, _⟩ := hostTldSepAt_sound heq
          exact ⟨hne, hall, htne, htall⟩
        · exact hmn h
      · exact hmn h

theorem findPrefixMatch_sound {s pre b t r : List Char}
    (h : findPrefixMatch s = some (pre, b, t, r)) :
    b ≠ [] ∧ (∀ x ∈ b, isHostChar x = true) ∧ t ≠ [] ∧
      (∀ x ∈ t, isHostChar x = true) := by
  induction s generalizing pre b t r with
  | nil => cases h
  | cons a rest ih =>
    simp only [findPrefixMatch] at h
    cases hm : matchAtPos (a :: rest) with
    | some x =>
      obtain ⟨b1, t1, r1⟩ := x
      rw [hm] at h
      cases h
      exact matchAtPos_sound hm
    | none =>
      rw [hm] at h
      cases hf : findPrefixMatch rest with
      | none => rw [hf] at h; cases h
      | some y =>
        obtain ⟨pre1, b1, t1, r1⟩ := y
        rw [hf] at h
        cases h
        exact ih hf

theorem urlWithVersion_ok_cases {s w : List Char} (h : urlWithVersion s = .ok w) :
    (∃ pre b t after, findPrefixMatch s = some (pre, b, t, after) ∧
      w = ("https://").data ++ b ++ '.' :: (t ++ '/' :: (pre ++ after))) ∨
    (findPrefixMatch s = none ∧ ghRepoIsMatch s = true ∧
      w = ("https://github.com/").data ++ s) := by
  unfold urlWithVersion at h
  cases hf : findPrefixMatch s with
  | some x =>
    obtain ⟨pre, b, t, after⟩ := x
    rw [hf] at h
    cases h
    left
    exact ⟨pre, b, t, after, rfl, rfl⟩
  | none =>
    rw [hf] at h
    by_cases hg : ghRepoIsMatch s = true
    · rw [if_pos hg] at h
      cases h
      right
      exact ⟨rfl, hg, rfl⟩
    · rw [if_neg hg] at h
      cases h

theorem urlWithVersion_of_canonical {b t p : List Char}
    (hb : b ≠ []) (hba : ∀ x ∈ b, isHostChar x = true)
    (ht : t ≠ []) (hta : ∀ x ∈ t, isHostChar x = true) :
    urlWithVersion (("https://").data ++ (b ++ '.' :: (t ++ '/' :: p))) =
      .ok (("https://").data ++ (b ++ '.' :: (t ++ '/' :: p))) := by
  have hm := matchAtPos_https '/' p hb hba ht hta (Or.inl rfl)
  have hne : ("https://").data ++ (b ++ '.' :: (t ++ '/' :: p)) ≠ [] := by simp
  have hfp := findPrefixMatch_of_match hne hm
  unfold urlWithVersion
  rw [hfp]
  simp [List.append_assoc]

theorem dep_refix {u : List Char} (hu : urlWithVersion u = .ok u) (hat : '@' ∉ u) :
    Dependency.from_str u = .ok ⟨afterLastChar '/' u, u, none⟩ := by
  rw [dep_from_str_ok _ _ hu, beforeFirstChar_of_not_mem hat, if_neg hat]

/-- C6: the SSH form `git@host.tld:owner/repo`, the plain URL
`https://host.tld/owner/repo`, and the git-scheme URL
`git+https://host.tld/owner/repo` all resolve to the identical url
`https://host.tld/owner/repo`, with the same name (repo) and no ref. -/
theorem claim_C6 (host tld owner repo : List Char)
    (hh : host ≠ []) (hha : ∀ x ∈ host, isHostChar x = true)
    (ht : tld ≠ []) (hta : ∀ x ∈ tld, isHostChar x = true)
    (hoa : ∀ x ∈ owner, isOwnerChar x = true)
    (hra : ∀ x ∈ repo, isRepoChar x = true) :
    Dependency.from_str
        (("git@").data ++ (host ++ '.' :: (tld ++ ':' :: (owner ++ '/' :: repo)))) =
      .ok ⟨repo,
        ("https://").data ++ (host ++ '.' :: (tld ++ '/' :: (owner ++ '/' :: repo))), none⟩ ∧
    Dependency.from_str
        (("git+https://").data ++ (host ++ '.' :: (tld ++ '/' :: (owner ++ '/' :: repo)))) =
      .ok ⟨repo,
        ("https://").data ++ (host ++ '.' :: (tld ++ '/' :: (owner ++ '/' :: repo))), none⟩ ∧
    Dependency.from_str
        (("https://").data ++ (host ++ '.' :: (tld ++ '/' :: (owner ++ '/' :: repo)))) =
      .ok ⟨repo,
        ("https://").data ++ (host ++ '.' :: (tld ++ '/' :: (owner ++ '/' :: repo))), none⟩ := by
  have hat : '@' ∉
      ("https://").data ++ (host ++ '.' :: (tld ++ '/' :: (owner ++ '/' :: repo))) := by
    intro hx
    rcases List.mem_append.mp hx with hx | hx
    · exact absurd hx (by decide)
    · rcases List.mem_append.mp hx with hx | hx
      · exact absurd (hha _ hx) (by decide)
      · rcases List.mem_cons.mp hx with hx | hx
        · exact absurd hx (by decide)
        · rcases List.mem_append.mp hx with hx | hx
          · exact absurd (hta _ hx) (by decide)
          · rcases List.mem_cons.mp hx with hx | hx
            · exact absurd hx (by decide)
            · rcases List.mem_append.mp hx with hx | hx
              · exact absurd (hoa _ hx) (by decide)
              · rcases List.mem_cons.mp hx with hx | hx
                · exact absurd hx (by decide)
                · exact absurd (hra _ hx) (by decide)
  have hname : afterLastChar '/'
      (("https://").data ++ (host ++ '.' :: (tld ++ '/' :: (owner ++ '/' :: repo)))) =
      repo := by
    have hassoc : ("https://").data ++ (host ++ '.' :: (tld ++ '/' :: (owner ++ '/' :: repo))) =
        (("https://").data ++ (host ++ '.' :: (tld ++ '/' :: owner))) ++ '/' :: repo := by
      simp [List.append_assoc]
    rw [hassoc]
    exact afterLastChar_append _ (fun hx => absurd (hra _ hx) (by decide))
  have key : ∀ inp : List Char,
      findPrefixMatch inp = some ([], host, tld, owner ++ '/' :: repo) →
      Dependency.from_str inp =
        .ok ⟨repo,
          ("https://").data ++ (host ++ '.' :: (tld ++ '/' :: (owner ++ '/' :: repo))),
          none⟩ := by
    intro inp hfp
    have hw : urlWithVersion inp =
        .ok (("https://").data ++ (host ++ '.' :: (tld ++ '/' :: (owner ++ '/' :: repo)))) := by
      unfold urlWithVersion
      rw [hfp]
      simp [List.append_assoc]
    rw [dep_from_str_ok _ _ hw, beforeFirstChar_of_not_mem hat, if_neg hat, hname]
  exact ⟨key _ (findPrefixMatch_of_match (by simp) (matchAtPos_gitat ':' (owner ++ '/' :: repo) hh hha ht hta (Or.inr rfl))),
    key _ (findPrefixMatch_of_match (by simp) (matchAtPos_gitplus '/' (owner ++ '/' :: repo) hh hha ht hta (Or.inl rfl))),
    key _ (findPrefixMatch_of_match (by simp) (matchAtPos_https '/' (owner ++ '/' :: repo) hh hha ht hta (Or.inl rfl)))⟩

/-- C6 witness: the SSH form applied at `git@github.com:gakonst/lootloose`. -/
theorem claim_C6_witness :
    Dependency.from_str
        (("git@").data ++ (("github").data ++ '.' ::
          (("com").data ++ ':' :: (("gakonst").data ++ '/' :: ("lootloose").data)))) =
      .ok ⟨("lootloose").data,
        ("https://").data ++ (("github").data ++ '.' ::
          (("com").data ++ '/' :: (("gakonst").data ++ '/' :: ("lootloose").data))),
        none⟩ :=
  (claim_C6 (("github").data) (("com").data) (("gakonst").data) (("lootloose").data)
    (by decide) (by decide) (by decide) (by decide) (by decide) (by decide)).1

/-- C8 counterexample: resolving `"gakonst/lootloose@0.1.0"` yields ref
`Some "0.1.0"`, but re-resolving its url yields ref `None`, so the
re-resolved spec differs from the original in the ref field. -/
theorem claim_C8_cex :
    Dependency.from_str ("gakonst/lootloose@0.1.0").data =
      .ok ⟨("lootloose").data, ("https://github.com/gakonst/lootloose").data,
        some (("0.1.0").data)⟩ ∧
    Dependency.from_str ("https://github.com/gakonst/lootloose").data =
      .ok ⟨("lootloose").data, ("https://github.com/gakonst/lootloose").data, none⟩ ∧
    some (("0.1.0").data) ≠ (none : Option (List Char)) := by decide

/-- C8 (amended): for every successful resolution, re-resolving the
returned url succeeds with the same url and the same name but with ref
= None; hence the full spec is reproduced exactly when the original ref
was None (as for an already-canonical URL such as
`https://github.com/owner/repo`). -/
theorem claim_C8 (s : List Char) (d : Dependency)
    (h : Dependency.from_str s = .ok d) :
    Dependency.from_str d.url = .ok ⟨d.name, d.url, none⟩ := by
  rcases hw : urlWithVersion s with e | w
  · rw [dep_from_str_err s e hw] at h
    cases h
  · rw [dep_from_str_ok s w hw] at h
    cases h
    rcases urlWithVersion_ok_cases hw with ⟨pre, b, t, after, hfp, hwval⟩ | ⟨hfp, hgh, hwval⟩
    · obtain ⟨hbne, hba, htne, hta⟩ := findPrefixMatch_sound hfp
      subst hwval
      have hassoc : ("https://").data ++ b ++ '.' :: (t ++ '/' :: (pre ++ after)) =
          ("https://").data ++ (b ++ '.' :: (t ++ '/' :: (pre ++ after))) := by
        simp [List.append_assoc]
      rw [hassoc]
      have hbf : beforeFirstChar '@'
          (("https://").data ++ (b ++ '.' :: (t ++ '/' :: (pre ++ after)))) =
          ("https://").data ++ (b ++ '.' :: (t ++ '/' ::
            beforeFirstChar '@' (pre ++ after))) := by
        rw [beforeFirst_app_ne (by decide : ∀ x ∈ ("https://").data, x ≠ '@'),
          beforeFirst_app_ne (fun x hx => (hostChar_ne (hba x hx)).1)]
        have hd : ¬ ('.' : Char) = '@' := by decide
        have hs : ¬ ('/' : Char) = '@' := by decide
        simp only [beforeFirstChar, if_neg hd]
        rw [beforeFirst_app_ne (fun x hx => (hostChar_ne (hta x hx)).1)]
        simp only [beforeFirstChar, if_neg hs]
      rw [hbf]
      have hat : '@' ∉ ("https://").data ++ (b ++ '.' :: (t ++ '/' ::
          beforeFirstChar '@' (pre ++ after))) := by
        intro hx
        rcases List.mem_append.mp hx with hx | hx
        · exact absurd hx (by decide)
        · rcases List.mem_append.mp hx with hx | hx
          · exact absurd (hba _ hx) (by decide)
          · rcases List.mem_cons.mp hx with hx | hx
            · exact absurd hx (by decide)
            · rcases List.mem_append.mp hx with hx | hx
              · exact absurd (hta _ hx) (by decide)
              · rcases List.mem_cons.mp hx with hx | hx
                · exact absurd hx (by decide)
                · exact not_mem_beforeFirstChar '@' (pre ++ after) hx
      exact dep_refix (urlWithVersion_of_canonical hbne hba htne hta) hat
    · subst hwval
      have hbf : beforeFirstChar '@' (("https://github.com/").data ++ s) =
          ("https://github.com/").data ++ beforeFirstChar '@' s :=
        beforeFirst_app_ne (by decide : ∀ x ∈ ("https://github.com/").data, x ≠ '@') s
      rw [hbf]
      have hform : ("https://github.com/").data ++ beforeFirstChar '@' s =
          ("https://").data ++ (("github").data ++ '.' ::
            (("com").data ++ '/' :: beforeFirstChar '@' s)) := rfl
      rw [hform]
      have hat : '@' ∉ ("https://").data ++ (("github").data ++ '.' ::
          (("com").data ++ '/' :: beforeFirstChar '@' s)) := by
        intro hx
        rcases List.mem_append.mp hx with hx | hx
        · exact absurd hx (by decide)
        · rcases List.mem_append.mp hx with hx | hx
          · exact absurd hx (by decide)
          · rcases List.mem_cons.mp hx with hx | hx
            · exact absurd hx (by decide)
            · rcases List.mem_append.mp hx with hx | hx
              · exact absurd hx (by decide)
              · rcases List.mem_cons.mp hx with hx | hx
                · exact absurd hx (by decide)
                · exact not_mem_beforeFirstChar '@' s hx
      exact dep_refix
        (urlWithVersion_of_canonical (by decide) (by decide) (by decide) (by decide)) hat

/-- C8 witness: the amended idempotence applied to the result of
resolving `"gakonst/lootloose@0.1.0"`. -/
theorem claim_C8_witness :
    Dependency.from_str ("https://github.com/gakonst/lootloose").data =
      .ok ⟨("lootloose").data, ("https://github.com/gakonst/lootloose").data, none⟩ :=
  claim_C8 (("gakonst/lootloose@0.1.0").data)
    ⟨("lootloose").data, ("https://github.com/gakonst/lootloose").data,
      some (("0.1.0").data)⟩
    (by decide)

example : ContractInfo.from_str ("src/contracts/Contracts.sol:Contract").data =
    .ok ⟨some ("src/contracts/Contracts.sol").data, ("Contract").data⟩ := by decide

example : ContractInfo.from_str ("Contract").data = .ok ⟨none, ("Contract").data⟩ := by decide

example : (ContractInfo.from_str ("src/contracts/").data).isOk = false := by decide

example : Dependency.from_str ("gakonst/lootloose").data =
    .ok ⟨("lootloose").data, ("https://github.com/gakonst/lootloose").data, none⟩ := by decide

example : Dependency.from_str ("git@github.com:gakonst/lootloose@v1").data =
    .ok ⟨("lootloose").data, ("https://github.com/gakonst/lootloose").data,
      some (("v1").data)⟩ := by decide

example : Dependency.from_str ("https://gitlab.com/gakonst/lootloose").data =
    .ok ⟨("lootloose").data, ("https://gitlab.com/gakonst/lootloose").data, none⟩ := by decide

example : (Dependency.from_str ("solmate").data).isOk = false := by decide

example : (ContractInfo.from_str ("a:A.sol\u00A0").data).isOk = false := by decide

example : ContractInfo.from_str ("a:B\u000B\u000C").data =
    .ok ⟨some (("a").data), ("B").data⟩ := by decide

example : FullContractInfo.from_str ("p: N\u000C").data =
    .ok ⟨("p").data, ("N").data⟩ := by decide

end Foundry
